import Mathlib

/-!
Verification development for the Minerva evolutionary-RAG core
(`src/minerva/core/genome.py`, `src/minerva/core/evolution.py`,
`src/minerva/retrieval/holographic.py`).

Modelling conventions:
* Python floats are modelled by real numbers (`ℝ`) for the vector arithmetic
  (semantic patterns, activations, similarity scores), and by rationals (`ℚ`)
  for the scalar bookkeeping fields (`strength`, connection weights,
  `mutation_rate`) whose operations stay inside `ℚ`.
* `np.linalg.norm` is the Euclidean norm `Real.sqrt (dot v v)`.
* Python dicts are association lists with Python-dict update semantics
  (`dictSet` replaces in place when the key is present, otherwise appends;
  lookup takes the first matching entry).
* Randomness (`np.random.random`, `np.random.normal`) is supplied explicitly
  as oracle arguments (uniform draws, Gaussian draws, blend weights), so every
  function of the code becomes a deterministic function of its random draws.
* The external sentence-transformer embedder is out of scope per the spec;
  functions that embed a query text receive the query embedding directly.
* A Python `raise` is modelled by returning `none`; in the source every raise
  happens before any state mutation, so the caller's state is untouched.
-/

namespace Minerva

/-- Values stored in a gene's `metadata` bag.  The algorithms never interpret
them, so we model them as opaque strings. -/
abbrev MetaVal := String

/-! ### Python-dict association lists -/

/-- Lookup `m[k]`: first entry with key `k`, if any. -/
def dictGet (m : List (String × α)) (k : String) : Option α :=
  (m.find? (fun p => p.1 == k)).map (·.2)

/-- Lookup `m.get(k, d)` with default. -/
def dictGetD (m : List (String × α)) (k : String) (d : α) : α :=
  (dictGet m k).getD d

/-- Assignment `m[k] = v` with Python-dict semantics.  If the key is present the entry is
replaced in place (Python dicts keep the original insertion position);
otherwise the entry is appended. -/
def dictSet (m : List (String × α)) (k : String) (v : α) : List (String × α) :=
  if m.any (fun p => p.1 == k) then
    m.map (fun p => if p.1 = k then (k, v) else p)
  else
    m ++ [(k, v)]

/-- The keys of a dict. -/
def dictKeys (m : List (String × α)) : List String :=
  m.map (·.1)

/-- Union `{**m1, **m2}` of two dicts, the second dict's values winning on key
collision. -/
def dictUpdate (m1 m2 : List (String × α)) : List (String × α) :=
  m2.foldl (fun acc kv => dictSet acc kv.1 kv.2) m1

/-! ### Vector arithmetic -/

/-- Dot product `np.dot` on equal-length vectors (zip truncates, as the claims only apply
it to equal-length vectors). -/
def dot (v w : List ℝ) : ℝ :=
  (List.zipWith (· * ·) v w).sum

/-- Euclidean norm `np.linalg.norm`. -/
noncomputable def normL2 (v : List ℝ) : ℝ :=
  Real.sqrt (dot v v)

/-- Normalization `v / np.linalg.norm(v)` (elementwise division by the norm). -/
noncomputable def normalize (v : List ℝ) : List ℝ :=
  v.map (· / normL2 v)

/-- Matrix-vector product `basis @ v` (a list of row-dot-products). -/
def matvec (m : List (List ℝ)) (v : List ℝ) : List ℝ :=
  m.map (fun row => dot row v)

/-! ### `KnowledgeGene` (src/minerva/core/genome.py) -/

/-- The `KnowledgeGene` dataclass.  Defaults follow the dataclass defaults
(`strength=1.0`, `activation=0.0`, `metadata=None`→`{}`). -/
structure KnowledgeGene where
  id : String
  semantic_pattern : List ℝ
  connections : List (String × ℚ)
  strength : ℚ := 1
  activation : ℝ := 0
  metadata : List (String × MetaVal) := []

/-- Mutation `KnowledgeGene.evolve(mutation_rate)`.

The source draws `mask = np.random.random(len) < mutation_rate` and adds
`np.random.normal(0, 0.1)` noise at the masked coordinates; here the uniform
draws `randoms` and the Gaussian draws `gauss` are oracle inputs, so each
coordinate becomes `p + (if randoms_i < mutation_rate then gauss_i else p)`.
The perturbed pattern is renormalized, the id gets the `_mut` suffix,
strength is multiplied by `0.95`, and `connections`/`metadata` are copied. -/
noncomputable def KnowledgeGene.evolve (g : KnowledgeGene) (mutation_rate : ℝ)
    (randoms gauss : List ℝ) : KnowledgeGene :=
  let new_pattern :=
    List.zipWith (fun p rg => if rg.1 < mutation_rate then p + rg.2 else p)
      g.semantic_pattern (randoms.zip gauss)
  { id := g.id ++ "_mut"
    semantic_pattern := normalize new_pattern
    connections := g.connections
    strength := g.strength * (19/20)
    activation := 0
    metadata := g.metadata }

/-! ### `NeuralGenePool` (src/minerva/core/genome.py) -/

/-- The `networkx.DiGraph` state used by the pool: a node list and a weighted
edge list (node `gene` attributes are not used by any claim and are not
modelled). -/
structure DiGraph where
  nodes : List String := []
  edges : List (String × String × ℚ) := []

/-- Operation `graph.add_node`: adds the node if absent (attribute updates on an
existing node do not change the node set). -/
def DiGraph.addNode (g : DiGraph) (n : String) : DiGraph :=
  if g.nodes.contains n then g else { g with nodes := g.nodes ++ [n] }

/-- Operation `graph.add_edge(u, v, weight=w)`: inserts missing endpoints, then inserts
the edge or overwrites its weight if present. -/
def DiGraph.addEdge (g : DiGraph) (u v : String) (w : ℚ) : DiGraph :=
  let g' := (g.addNode u).addNode v
  if g'.edges.any (fun e => e.1 == u && e.2.1 == v) then
    { g' with edges := g'.edges.map (fun e => if e.1 == u && e.2.1 == v then (u, v, w) else e) }
  else
    { g' with edges := g'.edges ++ [(u, v, w)] }

/-- Operation `graph.remove_node(n)`: drops the node and every incident edge. -/
def DiGraph.removeNode (g : DiGraph) (n : String) : DiGraph :=
  { nodes := g.nodes.filter (fun m => !(m == n))
    edges := g.edges.filter (fun e => !(e.1 == n) && !(e.2.1 == n)) }

/-- The `NeuralGenePool` state: the gene dict, the relationship graph and the
embedding dimension fixed by the (external) embedder probe.  The `config`
dict is not part of the state here; the configured rates and `top_k` are
passed as explicit arguments where the methods read them. -/
structure NeuralGenePool where
  genes : List (String × KnowledgeGene) := []
  graph : DiGraph := {}
  embedding_dim : ℕ := 384

/-- Insertion `NeuralGenePool.add_gene`.  Raises (returns `none`) when the gene's
pattern length disagrees with `embedding_dim` — this check is the first
statement of the method, so a failing call mutates nothing.  On success the
gene is stored under its id (replacing any previous gene with the same id),
a graph node is added, and an edge is added for every connection entry whose
target id is present in the post-insertion gene dict (the source checks
membership after `self.genes[gene.id] = gene`). -/
def NeuralGenePool.add_gene (pool : NeuralGenePool) (gene : KnowledgeGene) :
    Option NeuralGenePool :=
  if gene.semantic_pattern.length ≠ pool.embedding_dim then
    none
  else
    let genes' := dictSet pool.genes gene.id gene
    let graph' := pool.graph.addNode gene.id
    let graph'' := gene.connections.foldl
      (fun gr kv =>
        if (dictGet genes' kv.1).isSome then gr.addEdge gene.id kv.1 kv.2 else gr)
      graph'
    some { pool with genes := genes', graph := graph'' }

/-- Selection `NeuralGenePool.natural_selection`: remove every gene with
`strength < 0.1` (and its graph node), then multiply the strength of every
surviving gene with `activation > 0.5` by `1.1`, capped at `1.0`. -/
noncomputable def NeuralGenePool.natural_selection (pool : NeuralGenePool) :
    NeuralGenePool :=
  let to_remove := (pool.genes.filter (fun kg => kg.2.strength < 1/10)).map (·.1)
  let survivors := pool.genes.filter (fun kg => ¬ kg.2.strength < 1/10)
  let graph' := to_remove.foldl (fun gr n => gr.removeNode n) pool.graph
  let genes' := survivors.map (fun kg =>
    (kg.1, if kg.2.activation > 1/2 then
             { kg.2 with strength := min 1 (kg.2.strength * (11/10)) }
           else kg.2))
  { pool with genes := genes', graph := graph' }

/-- The descending-activation comparison used by
`sorted(activated_genes, key=lambda x: x.activation, reverse=True)`. -/
def actGE (a b : KnowledgeGene) : Prop :=
  b.activation ≤ a.activation

noncomputable instance : DecidableRel actGE :=
  fun _ _ => Real.decidableLE _ _

instance : IsTotal KnowledgeGene actGE :=
  ⟨fun a b => le_total b.activation a.activation⟩

instance : IsTrans KnowledgeGene actGE :=
  ⟨fun _ _ _ h1 h2 => le_trans h2 h1⟩

/-- Activation `NeuralGenePool.activate_genes`.  The embedder is external, so the query
embedding is the input.  Each gene whose pattern length matches the query
length gets `activation := max 0 (dot pattern query - 0.3)` written back;
mismatched genes are skipped untouched.  The matching genes with positive
activation are returned sorted by descending activation (Python's `sorted`
is stable; so is insertion sort). -/
noncomputable def NeuralGenePool.activate_genes (pool : NeuralGenePool)
    (query_embedding : List ℝ) : NeuralGenePool × List KnowledgeGene :=
  let genes' := pool.genes.map (fun kg =>
    if kg.2.semantic_pattern.length = query_embedding.length then
      (kg.1, { kg.2 with
                activation := max 0 (dot kg.2.semantic_pattern query_embedding - 3/10) })
    else kg)
  let activated := (genes'.map (·.2)).filter (fun g =>
    g.semantic_pattern.length = query_embedding.length ∧ g.activation > 0)
  ({ pool with genes := genes' }, List.insertionSort actGE activated)

/-- Crossover `NeuralGenePool._crossover(gene1, gene2)`.  Raises (returns `none`) when
the parents' pattern lengths differ.  Otherwise the child blends the patterns
with the uniform draw `alpha` and renormalizes, merges `connections` by
`new[k] = max(gene2[k], new.get(k, 0))` over `gene2`'s entries starting from
a copy of `gene1.connections`, averages the strengths, and merges metadata as
`{**gene1.metadata, **gene2.metadata}`. -/
noncomputable def crossover (gene1 gene2 : KnowledgeGene) (alpha : ℝ) :
    Option KnowledgeGene :=
  if gene1.semantic_pattern.length ≠ gene2.semantic_pattern.length then
    none
  else
    let new_pattern := normalize
      (List.zipWith (fun a b => alpha * a + (1 - alpha) * b)
        gene1.semantic_pattern gene2.semantic_pattern)
    let new_connections := gene2.connections.foldl
      (fun acc kv => dictSet acc kv.1 (max kv.2 (dictGetD acc kv.1 0)))
      gene1.connections
    some
      { id := gene1.id ++ "_" ++ gene2.id ++ "_child"
        semantic_pattern := new_pattern
        connections := new_connections
        strength := (gene1.strength + gene2.strength) / 2
        activation := 0
        metadata := dictUpdate gene1.metadata gene2.metadata }

/-- The per-position walk of `NeuralGenePool.evolve_activation` before the
final `[:top_k]` truncation.  `i` is the enumeration index (used only to
address the per-position random draws); a crossover with the next gene is
attempted only when the position is not the last one, and a raising crossover
aborts the whole call (`none`).  `mutation_rate` and `crossover_rate` are the
configured gate probabilities; the mutant itself is always bred with the
hard-coded rate `0.1` of the source (`gene.evolve(0.1)`). -/
noncomputable def evolveWalk (mutation_rate crossover_rate : ℝ)
    (mrand crand : ℕ → ℝ) (mutRandoms mutGauss : ℕ → List ℝ) (alpha : ℕ → ℝ) :
    ℕ → List KnowledgeGene → Option (List KnowledgeGene)
  | _, [] => some []
  | i, g :: rest =>
    let mutPart : List KnowledgeGene :=
      if mrand i < mutation_rate then [g.evolve (1/10) (mutRandoms i) (mutGauss i)] else []
    let crossPart : Option (List KnowledgeGene) :=
      match rest with
      | [] => some []
      | g2 :: _ =>
        if crand i < crossover_rate then
          (crossover g g2 (alpha i)).map (fun c => [c])
        else some []
    match crossPart with
    | none => none
    | some cp =>
      (evolveWalk mutation_rate crossover_rate mrand crand mutRandoms mutGauss alpha
          (i + 1) rest).map
        (fun tail => mutPart ++ cp ++ tail)

/-- Generation step `NeuralGenePool.evolve_activation`: run the walk over the activated genes
and truncate the accumulated offspring to the first `top_k` entries. -/
noncomputable def NeuralGenePool.evolve_activation (genes : List KnowledgeGene)
    (mutation_rate crossover_rate : ℝ) (top_k : ℕ)
    (mrand crand : ℕ → ℝ) (mutRandoms mutGauss : ℕ → List ℝ) (alpha : ℕ → ℝ) :
    Option (List KnowledgeGene) :=
  (evolveWalk mutation_rate crossover_rate mrand crand mutRandoms mutGauss alpha
      0 genes).map
    (fun new_generation => new_generation.take top_k)

/-! ### `EvolutionaryOptimizer` (src/minerva/core/evolution.py) -/

/-- The mutation-rate escalation of one `optimize_memory` iteration:
`min(0.5, old_rate * 1.1)`. -/
def bumpMutationRate (rate : ℚ) : ℚ :=
  min (1/2) (rate * (11/10))

/-- The `optimize_memory` while-loop of `EvolutionaryOptimizer` (the
`src/minerva/core/evolution.py` variant, whose signature carries
`max_iterations`).

`run_generation` drives the whole pool through embedder calls and random
draws, and `_estimate_memory_usage` sums `zlib`-compressed byte lengths;
both are external effects from the loop's point of view, so they enter as
the oracle parameters `step : σ → σ` (the pool transformation of one
generation) and `est : σ → ℕ` (the byte estimate).  Every result below is
proved for all such oracles.  `fuel` is `max_iterations - iterations`, so
the guard `iterations < max_iterations` is `fuel ≠ 0`; the stagnation guard
re-runs the estimator on the unchanged pool exactly as the source line
`current_size >= self._estimate_memory_usage()` does. -/
def optLoop (step : σ → σ) (est : σ → ℕ) (target : ℕ) :
    ℕ → σ → ℚ → ℕ → σ × ℚ × ℕ
  | 0, s, rate, iterations => (s, rate, iterations)
  | fuel + 1, s, rate, iterations =>
    if est s > target then
      let iterations' := iterations + 1
      let rate' := bumpMutationRate rate
      let s' := step s
      let current_size := est s'
      if iterations' > 10 ∧ current_size ≥ est s' then
        (s', rate', iterations')
      else
        optLoop step est target fuel s' rate' iterations'
    else
      (s, rate, iterations)

/-- Entry point `EvolutionaryOptimizer.optimize_memory(target_size, max_iterations)`:
run the loop from `iterations = 0` with the configured mutation rate. -/
def optimize_memory (step : σ → σ) (est : σ → ℕ) (target : ℕ)
    (max_iterations : ℕ) (s : σ) (rate : ℚ) : σ × ℚ × ℕ :=
  optLoop step est target max_iterations s rate 0

/-! ### `HolographicMemory` (src/minerva/retrieval/holographic.py) -/

/-- The `HolographicMemory` state after `_init_basis`: the projection basis
is a fixed matrix (its construction by QR-orthogonalization of a random
Gaussian matrix is external randomness; no claim depends on orthonormality). -/
structure HolographicMemory where
  compression_size : ℕ := 128
  embedding_dim : ℕ := 384
  basis : List (List ℝ)

/-- The body of `HolographicMemory.compress` after the dimension check:
project, then normalize unless the projection norm is zero (the zero vector
is returned as is). -/
noncomputable def HolographicMemory.compressRaw (mem : HolographicMemory)
    (v : List ℝ) : List ℝ :=
  let projection := matvec mem.basis v
  let norm := normL2 projection
  if norm = 0 then projection else projection.map (· / norm)

/-- Compression `HolographicMemory.compress`: raises (returns `none`) when the input
length is not `embedding_dim`. -/
noncomputable def HolographicMemory.compress (mem : HolographicMemory)
    (v : List ℝ) : Option (List ℝ) :=
  if v.length ≠ mem.embedding_dim then none else some (mem.compressRaw v)

/-- The candidate loop of `HolographicMemory.similarity_search`: walk the
candidates with their enumeration index, skip those whose length is not
`embedding_dim`, and record `(original index, dot of compressed forms)` for
the rest.  (`compress` can only raise on a length mismatch, which the guard
has already excluded, so the `try/except` of the source never fires.) -/
noncomputable def validScores (mem : HolographicMemory) (cq : List ℝ) :
    ℕ → List (List ℝ) → List (ℕ × ℝ)
  | _, [] => []
  | i, v :: rest =>
    if v.length = mem.embedding_dim then
      (i, dot cq (mem.compressRaw v)) :: validScores mem cq (i + 1) rest
    else
      validScores mem cq (i + 1) rest

/-- The ascending-score comparison underlying `np.argsort(similarities)`. -/
def scoreLE (a b : ℕ × ℝ) : Prop :=
  a.2 ≤ b.2

noncomputable instance : DecidableRel scoreLE :=
  fun _ _ => Real.decidableLE _ _

instance : IsTotal (ℕ × ℝ) scoreLE :=
  ⟨fun a b => le_total a.2 b.2⟩

instance : IsTrans (ℕ × ℝ) scoreLE :=
  ⟨fun _ _ _ h1 h2 => le_trans h1 h2⟩

/-- Search `HolographicMemory.similarity_search(query, vectors, top_k)`.  Raises
(returns `none`) when the query length is not `embedding_dim`.  Otherwise the
valid candidates are ranked ascending by score (`np.argsort`; its tie order
is unspecified, and so is the claims'), the slice `[-top_k:]` keeps the last
`top_k` entries — all of them when `top_k = 0`, since Python's `[-0:]` is the
whole list — and `[::-1]` reverses into descending order; the original
indices and the scores of the kept entries are returned, and two empty lists
are returned when no candidate is valid. -/
noncomputable def HolographicMemory.similarity_search (mem : HolographicMemory)
    (query : List ℝ) (vectors : List (List ℝ)) (top_k : ℕ) :
    Option (List ℕ × List ℝ) :=
  if query.length ≠ mem.embedding_dim then
    none
  else
    let valids := validScores mem (mem.compressRaw query) 0 vectors
    if valids = [] then
      some ([], [])
    else
      let sortedAsc := List.insertionSort scoreLE valids
      let sliced := if top_k = 0 then sortedAsc else sortedAsc.drop (sortedAsc.length - top_k)
      let result := sliced.reverse
      some (result.map (·.1), result.map (·.2))

/-! ### Association-list lemmas -/

theorem dictGet_nil (k : String) : dictGet ([] : List (String × α)) k = none := rfl

theorem dictGet_cons (p : String × α) (m : List (String × α)) (k : String) :
    dictGet (p :: m) k = if p.1 = k then some p.2 else dictGet m k := by
  by_cases h : p.1 = k
  · simp only [dictGet, if_pos h]
    rw [List.find?_cons_of_pos (p := fun (q : String × α) => q.1 == k) _ (beq_iff_eq.mpr h)]
    rfl
  · simp only [dictGet, if_neg h]
    rw [List.find?_cons_of_neg (p := fun (q : String × α) => q.1 == k) _ (by simp [h])]

theorem dictGet_replaceAll (m : List (String × α)) (k : String) (v : α) :
    dictGet (m.map (fun p => if p.1 = k then (k, v) else p)) k =
      if m.any (fun p => p.1 == k) then some v else none := by
  induction m with
  | nil => simp [dictGet]
  | cons p m ih =>
    by_cases h : p.1 = k
    · simp [dictGet_cons, h]
    · rw [List.map_cons, if_neg h, dictGet_cons, if_neg h, ih, List.any_cons,
        show (p.1 == k) = false from beq_eq_false_iff_ne.mpr h, Bool.false_or]

theorem dictGet_replaceAll_ne (m : List (String × α)) (k k' : String) (v : α)
    (hne : k' ≠ k) :
    dictGet (m.map (fun p => if p.1 = k then (k, v) else p)) k' = dictGet m k' := by
  induction m with
  | nil => simp [dictGet]
  | cons p m ih =>
    by_cases h : p.1 = k
    · rw [List.map_cons, if_pos h, dictGet_cons, dictGet_cons,
        if_neg (Ne.symm hne), if_neg (by rw [h]; exact Ne.symm hne)]
      exact ih
    · rw [List.map_cons, if_neg h, dictGet_cons, dictGet_cons]
      by_cases h' : p.1 = k'
      · rw [if_pos h', if_pos h']
      · rw [if_neg h', if_neg h']
        exact ih

theorem dictGet_append_single (m : List (String × α)) (k : String) (v : α)
    (h : m.any (fun p => p.1 == k) = false) :
    dictGet (m ++ [(k, v)]) k = some v := by
  induction m with
  | nil => simp [dictGet_cons]
  | cons p m ih =>
    rw [List.any_cons, Bool.or_eq_false_iff] at h
    rw [List.cons_append, dictGet_cons, if_neg (by simpa using h.1)]
    exact ih h.2

theorem dictGet_append_single_ne (m : List (String × α)) (k k' : String) (v : α)
    (hne : k' ≠ k) :
    dictGet (m ++ [(k, v)]) k' = dictGet m k' := by
  induction m with
  | nil => simp [dictGet, dictGet_cons, Ne.symm hne]
  | cons p m ih =>
    rw [List.cons_append, dictGet_cons, dictGet_cons]
    by_cases h : p.1 = k'
    · rw [if_pos h, if_pos h]
    · rw [if_neg h, if_neg h]
      exact ih

theorem dictGet_dictSet_self (m : List (String × α)) (k : String) (v : α) :
    dictGet (dictSet m k v) k = some v := by
  unfold dictSet
  by_cases h : m.any (fun p => p.1 == k)
  · rw [if_pos h, dictGet_replaceAll, if_pos h]
  · rw [if_neg h, dictGet_append_single _ _ _ (by rwa [Bool.not_eq_true] at h)]

theorem dictGet_dictSet_ne (m : List (String × α)) (k k' : String) (v : α)
    (hne : k' ≠ k) : dictGet (dictSet m k v) k' = dictGet m k' := by
  unfold dictSet
  by_cases h : m.any (fun p => p.1 == k)
  · rw [if_pos h, dictGet_replaceAll_ne _ _ _ _ hne]
  · rw [if_neg h, dictGet_append_single_ne _ _ _ _ hne]

theorem mem_dictSet (m : List (String × α)) (k : String) (v : α)
    (x : String × α) (hx : x ∈ dictSet m k v) : x ∈ m ∨ x = (k, v) := by
  unfold dictSet at hx
  by_cases h : m.any (fun p => p.1 == k)
  · rw [if_pos h] at hx
    rcases List.mem_map.1 hx with ⟨y, hy, hfy⟩
    by_cases hk : y.1 = k
    · right
      rw [← hfy, if_pos hk]
    · left
      rwa [← hfy, if_neg hk]
  · rw [if_neg h] at hx
    rcases List.mem_append.1 hx with hmem | hmem
    · exact Or.inl hmem
    · exact Or.inr (by simpa using hmem)

theorem dictGet_isSome_iff (m : List (String × α)) (k : String) :
    (dictGet m k).isSome ↔ m.any (fun p => p.1 == k) = true := by
  simp [dictGet, Option.isSome_map, List.find?_isSome, List.any_eq_true]

theorem length_dictSet_of_present (m : List (String × α)) (k : String) (v : α)
    (h : m.any (fun p => p.1 == k) = true) :
    (dictSet m k v).length = m.length := by
  simp [dictSet, h]

theorem dictGet_eq_none_of_not_mem_keys (m : List (String × α)) (k : String)
    (h : k ∉ dictKeys m) : dictGet m k = none := by
  induction m with
  | nil => simp [dictGet]
  | cons p m ih =>
    simp only [dictKeys, List.map_cons, List.mem_cons, not_or] at h
    rw [dictGet_cons, if_neg (fun hh => h.1 hh.symm)]
    exact ih (by simp [dictKeys, h.2])

/-! ### C2 — dimension check of `add_gene` -/

/-- C2: `add_gene` fails exactly when the gene's pattern length differs from
the pool's `embedding_dim` (the raise precedes every mutation in the source,
so a failing call leaves the pool untouched), and a successful insertion into
a pool all of whose genes have the right dimension yields a pool all of whose
genes still have the right dimension. -/
theorem add_gene_dimension_invariant (pool : NeuralGenePool) (gene : KnowledgeGene) :
    (pool.add_gene gene = none ↔
       gene.semantic_pattern.length ≠ pool.embedding_dim) ∧
    (∀ pool', pool.add_gene gene = some pool' →
      (∀ kg ∈ pool.genes, kg.2.semantic_pattern.length = pool.embedding_dim) →
      ∀ kg ∈ pool'.genes, kg.2.semantic_pattern.length = pool'.embedding_dim) := by
  by_cases hd : gene.semantic_pattern.length = pool.embedding_dim
  · refine ⟨?_, ?_⟩
    · rw [NeuralGenePool.add_gene, if_neg (by simpa using hd)]
      exact iff_of_false (by simp) (by simpa using hd)
    · intro pool' hsome hinv kg hkg
      rw [NeuralGenePool.add_gene, if_neg (by simpa using hd)] at hsome
      obtain rfl := Option.some_inj.mp hsome
      rcases mem_dictSet _ _ _ _ hkg with h | h
      · exact hinv kg h
      · subst h; simpa using hd
  · refine ⟨?_, ?_⟩
    · rw [NeuralGenePool.add_gene, if_pos hd]
      exact iff_of_true rfl hd
    · intro pool' hsome
      rw [NeuralGenePool.add_gene, if_pos hd] at hsome
      cases hsome

/-- Pool used by the C2 witness. -/
def poolC2 : NeuralGenePool :=
  { genes := [], graph := {}, embedding_dim := 1 }

/-- Gene used by the C2 witness. -/
def geneC2 : KnowledgeGene :=
  { id := "a", semantic_pattern := [1], connections := [] }

/-- Pool state after the C2 witness insertion. -/
def poolC2' : NeuralGenePool :=
  { genes := [("a", geneC2)], graph := { nodes := ["a"], edges := [] }, embedding_dim := 1 }

/-- Witness for C2 at a concrete pool and gene. -/
theorem add_gene_dimension_invariant_witness :
    geneC2.semantic_pattern.length = poolC2'.embedding_dim :=
  (add_gene_dimension_invariant poolC2 geneC2).2 poolC2' rfl
    (by intro kg hkg; simp [poolC2] at hkg)
    ("a", geneC2) (by simp [poolC2', dictSet, geneC2])

/-! ### C10 — re-adding an existing id -/

/-- Gene sitting in the C10 pool before the counterexample insertion. -/
def geneC10old : KnowledgeGene :=
  { id := "a", semantic_pattern := [1], connections := [] }

/-- Pool for the C10 counterexample: it already holds a gene with id `"a"`. -/
def poolC10 : NeuralGenePool :=
  { genes := [("a", geneC10old)], graph := { nodes := ["a"], edges := [] }, embedding_dim := 1 }

/-- A gene with the already-present id `"a"` but the wrong dimension. -/
def geneC10bad : KnowledgeGene :=
  { id := "a", semantic_pattern := [1, 2], connections := [] }

/-- C10 counterexample: adding a gene whose id is already present in the pool
can still fail — `add_gene` validates the dimension regardless of the id, so
the claim as stated (such an add "does not fail") is false. -/
theorem add_gene_existing_id_can_fail :
    ("a" ∈ dictKeys poolC10.genes) ∧ poolC10.add_gene geneC10bad = none := by
  constructor
  · simp [poolC10, dictKeys, geneC10old]
  · rfl

/-- C10 (amended): adding a dimension-valid gene whose id is already present
does not fail; the new gene replaces the stored one, the gene count is
unchanged, and a lookup of the id returns the new gene. -/
theorem add_gene_replaces_existing (pool : NeuralGenePool) (gene : KnowledgeGene)
    (hmem : (dictGet pool.genes gene.id).isSome)
    (hdim : gene.semantic_pattern.length = pool.embedding_dim) :
    (pool.add_gene gene).isSome ∧
    (pool.add_gene gene).map (fun p => dictGet p.genes gene.id) = some (some gene) ∧
    (pool.add_gene gene).map (fun p => p.genes.length) = some pool.genes.length := by
  unfold NeuralGenePool.add_gene
  have hne : ¬ gene.semantic_pattern.length ≠ pool.embedding_dim := by simpa using hdim
  rw [if_neg hne]
  refine ⟨rfl, ?_, ?_⟩
  · simp [dictGet_dictSet_self]
  · simp [length_dictSet_of_present _ _ _ ((dictGet_isSome_iff _ _).1 hmem)]

/-- The replacement gene of the C10 witness: id `"a"` again, valid dimension. -/
def geneC10new : KnowledgeGene :=
  { id := "a", semantic_pattern := [5], connections := [], strength := 1/2 }

/-! ### C3 — boundedness of `optimize_memory` -/

theorem optLoop_iterations_le (step : σ → σ) (est : σ → ℕ) (target : ℕ) :
    ∀ (fuel : ℕ) (s : σ) (rate : ℚ) (iterations : ℕ),
      (optLoop step est target fuel s rate iterations).2.2 ≤ iterations + fuel := by
  intro fuel
  induction fuel with
  | zero => intro s rate iterations; simp [optLoop]
  | succ n ih =>
    intro s rate iterations
    rw [optLoop]
    split
    · dsimp only
      split
      · dsimp only
        omega
      · exact le_trans (ih _ _ _) (by omega)
    · dsimp only
      omega

theorem optLoop_iterations_le_eleven (step : σ → σ) (est : σ → ℕ) (target : ℕ) :
    ∀ (fuel : ℕ) (s : σ) (rate : ℚ) (iterations : ℕ), iterations ≤ 10 →
      (optLoop step est target fuel s rate iterations).2.2 ≤ 11 := by
  intro fuel
  induction fuel with
  | zero => intro s rate iterations h; simpa [optLoop] using by omega
  | succ n ih =>
    intro s rate iterations h
    rw [optLoop]
    split
    · dsimp only
      by_cases hguard : iterations + 1 > 10 ∧ est (step s) ≥ est (step s)
      · rw [if_pos hguard]
        dsimp only
        omega
      · rw [if_neg hguard]
        have hle : iterations + 1 ≤ 10 := by
          by_contra hgt
          exact hguard ⟨by omega, le_refl _⟩
        exact ih _ _ _ hle
    · dsimp only
      omega

theorem optLoop_rate (step : σ → σ) (est : σ → ℕ) (target : ℕ) :
    ∀ (fuel : ℕ) (s : σ) (rate : ℚ) (iterations : ℕ),
      (optLoop step est target fuel s rate iterations).2.1 = rate ∨
      (optLoop step est target fuel s rate iterations).2.1 ≤ 1/2 := by
  intro fuel
  induction fuel with
  | zero => intro s rate iterations; left; rfl
  | succ n ih =>
    intro s rate iterations
    rw [optLoop]
    split
    · have hb : bumpMutationRate rate ≤ 1/2 := min_le_left _ _
      dsimp only
      split
      · right; simpa using hb
      · rcases ih (step s) (bumpMutationRate rate) (iterations + 1) with h | h
        · right; rw [h]; exact hb
        · right; exact h
    · left; rfl

/-- C3: for every generation oracle `step`, estimator oracle `est`, target and
`max_iterations`, the `optimize_memory` loop performs at most `max_iterations`
iterations; the stagnation guard (which in the source compares the fresh
estimate of the unchanged pool against itself, hence fires whenever
`iterations > 10`) additionally stops it after at most 11 iterations; the
final mutation rate is either the untouched initial rate or at most `0.5`,
and the per-iteration update `min(0.5, rate * 1.1)` never writes a value
above `0.5`. -/
theorem optimize_memory_bounded (step : σ → σ) (est : σ → ℕ)
    (target max_iterations : ℕ) (s : σ) (rate : ℚ) :
    (optimize_memory step est target max_iterations s rate).2.2 ≤ max_iterations ∧
    (optimize_memory step est target max_iterations s rate).2.2 ≤ 11 ∧
    ((optimize_memory step est target max_iterations s rate).2.1 = rate ∨
      (optimize_memory step est target max_iterations s rate).2.1 ≤ 1/2) ∧
    ∀ r : ℚ, bumpMutationRate r ≤ 1/2 :=
  ⟨by simpa [optimize_memory] using optLoop_iterations_le step est target max_iterations s rate 0,
   optLoop_iterations_le_eleven step est target max_iterations s rate 0 (by omega),
   optLoop_rate step est target max_iterations s rate 0,
   fun _ => min_le_left _ _⟩

/-! ### C7 — compressing the all-zero vector -/

theorem dot_replicate_zero (v : List ℝ) : ∀ n : ℕ, dot v (List.replicate n 0) = 0 := by
  induction v with
  | nil => intro n; simp [dot]
  | cons a v ih =>
    intro n
    cases n with
    | zero => simp [dot]
    | succ n =>
      rw [List.replicate_succ]
      simpa [dot, List.zipWith_cons_cons] using ih n

/-- C7: compressing the all-zero vector of length `embedding_dim` succeeds and
returns the all-zero compressed vector (one zero per basis row): the
projection of the zero vector is zero, its norm is zero, and the guard
`if norm == 0` returns the projection before any division happens. -/
theorem compress_zero (mem : HolographicMemory) :
    mem.compress (List.replicate mem.embedding_dim 0) =
      some (List.replicate mem.basis.length 0) := by
  have hlen : (List.replicate mem.embedding_dim (0:ℝ)).length = mem.embedding_dim := by
    simp
  have hproj : ∀ rows : List (List ℝ), matvec rows (List.replicate mem.embedding_dim 0) =
      List.replicate rows.length 0 := by
    intro rows
    induction rows with
    | nil => rfl
    | cons r rows ih =>
      rw [matvec, List.map_cons, dot_replicate_zero, List.length_cons, List.replicate_succ]
      rw [matvec] at ih
      rw [ih]
  have hnorm : normL2 (List.replicate mem.basis.length (0:ℝ)) = 0 := by
    unfold normL2
    rw [dot_replicate_zero, Real.sqrt_zero]
  rw [HolographicMemory.compress, if_neg (by simp), HolographicMemory.compressRaw]
  rw [hproj, hnorm]
  simp

/-! ### C4 — the `natural_selection` pass -/

/-- C4: after `natural_selection`, every remaining gene has
`strength ≥ 0.1`; every gene of the original pool that survives removal
(`¬ strength < 0.1`) reappears with exactly `min 1 (strength * 1.1)` when its
pre-pass activation exceeds `0.5` — no other field changed — and completely
unchanged otherwise. -/
theorem natural_selection_spec (pool : NeuralGenePool) :
    (∀ kg ∈ pool.natural_selection.genes, (1:ℚ)/10 ≤ kg.2.strength) ∧
    (∀ kg ∈ pool.genes, ¬ kg.2.strength < 1/10 →
       (kg.2.activation > 1/2 →
         (kg.1, { kg.2 with strength := min 1 (kg.2.strength * (11/10)) }) ∈
           pool.natural_selection.genes) ∧
       (¬ kg.2.activation > 1/2 → kg ∈ pool.natural_selection.genes)) := by
  constructor
  · intro kg hkg
    simp only [NeuralGenePool.natural_selection] at hkg
    rcases List.mem_map.1 hkg with ⟨kg₀, hkg₀, hf⟩
    have hs : ¬ kg₀.2.strength < 1/10 := by
      have := (List.mem_filter.1 hkg₀).2
      simpa using this
    have hs' : (1:ℚ)/10 ≤ kg₀.2.strength := not_lt.1 hs
    rw [← hf]
    by_cases ha : kg₀.2.activation > 1/2
    · rw [if_pos ha]
      refine le_min (by norm_num) ?_
      calc (1:ℚ)/10 ≤ kg₀.2.strength := hs'
        _ ≤ kg₀.2.strength * (11/10) :=
          le_mul_of_one_le_right (le_trans (by norm_num) hs') (by norm_num)
    · rw [if_neg ha]
      exact hs'
  · intro kg hkg hs
    have hmem : kg ∈ pool.genes.filter (fun kg => ¬ kg.2.strength < 1/10) :=
      List.mem_filter.2 ⟨hkg, by simpa using hs⟩
    constructor
    · intro ha
      simp only [NeuralGenePool.natural_selection]
      have := List.mem_map_of_mem
        (f := fun kg : String × KnowledgeGene =>
          (kg.1, if kg.2.activation > 1/2 then
                   { kg.2 with strength := min 1 (kg.2.strength * (11/10)) }
                 else kg.2)) hmem
      dsimp only at this
      rwa [if_pos ha] at this
    · intro ha
      simp only [NeuralGenePool.natural_selection]
      have := List.mem_map_of_mem
        (f := fun kg : String × KnowledgeGene =>
          (kg.1, if kg.2.activation > 1/2 then
                   { kg.2 with strength := min 1 (kg.2.strength * (11/10)) }
                 else kg.2)) hmem
      dsimp only at this
      rwa [if_neg ha] at this

/-- Gene used by the C4 witness: it survives removal and gets reinforced. -/
noncomputable def geneC4 : KnowledgeGene :=
  { id := "a", semantic_pattern := [1], connections := [],
    strength := 1/2, activation := 3/5 }

/-- Pool used by the C4 witness. -/
noncomputable def poolC4 : NeuralGenePool :=
  { genes := [("a", geneC4)], graph := { nodes := ["a"], edges := [] }, embedding_dim := 1 }

/-- Witness for C4: the concrete reinforced gene is in the post-pass pool. -/
theorem natural_selection_spec_witness :
    ("a", { geneC4 with strength := min 1 (geneC4.strength * (11/10)) }) ∈
      poolC4.natural_selection.genes :=
  ((natural_selection_spec poolC4).2 ("a", geneC4) (by simp [poolC4])
    (by norm_num [geneC4])).1 (by norm_num [geneC4])

/-! ### C1 — the `activate_genes` pass -/

/-- C1: `activate_genes` returns a list sorted by descending activation whose
members are exactly the genes of the updated pool with matching dimension and
strictly positive activation; in the updated pool every dimension-matching
gene carries activation `max 0 (dot pattern query - 0.3)` and every
mismatched gene is untouched (skipped without error). -/
theorem activate_genes_spec (pool : NeuralGenePool) (q : List ℝ) :
    List.Sorted actGE (pool.activate_genes q).2 ∧
    (∀ g, g ∈ (pool.activate_genes q).2 ↔
       (∃ k, (k, g) ∈ (pool.activate_genes q).1.genes) ∧
       g.semantic_pattern.length = q.length ∧ 0 < g.activation) ∧
    (∀ kg ∈ pool.genes,
       (kg.2.semantic_pattern.length = q.length →
         (kg.1, { kg.2 with
                   activation := max 0 (dot kg.2.semantic_pattern q - 3/10) }) ∈
           (pool.activate_genes q).1.genes) ∧
       (kg.2.semantic_pattern.length ≠ q.length →
         kg ∈ (pool.activate_genes q).1.genes)) := by
  refine ⟨?_, ?_, ?_⟩
  · exact List.sorted_insertionSort actGE _
  · intro g
    simp only [NeuralGenePool.activate_genes]
    rw [(List.perm_insertionSort actGE _).mem_iff, List.mem_filter]
    simp only [List.mem_map, decide_eq_true_eq]
    constructor
    · rintro ⟨⟨kg, hkg, hsnd⟩, hcond⟩
      exact ⟨⟨kg.1, by rwa [show (kg.1, g) = kg from by rw [← hsnd]]⟩, hcond.1, hcond.2⟩
    · rintro ⟨⟨k, hk⟩, hlen, hpos⟩
      exact ⟨⟨(k, g), hk, rfl⟩, hlen, hpos⟩
  · intro kg hkg
    constructor
    · intro hlen
      simp only [NeuralGenePool.activate_genes]
      have := List.mem_map_of_mem
        (f := fun kg : String × KnowledgeGene =>
          if kg.2.semantic_pattern.length = q.length then
            (kg.1, { kg.2 with
                      activation := max 0 (dot kg.2.semantic_pattern q - 3/10) })
          else kg) hkg
      dsimp only at this
      rwa [if_pos hlen] at this
    · intro hlen
      simp only [NeuralGenePool.activate_genes]
      have := List.mem_map_of_mem
        (f := fun kg : String × KnowledgeGene =>
          if kg.2.semantic_pattern.length = q.length then
            (kg.1, { kg.2 with
                      activation := max 0 (dot kg.2.semantic_pattern q - 3/10) })
          else kg) hkg
      dsimp only at this
      rwa [if_neg hlen] at this

/-- Gene used by the C1 witness. -/
def geneC1 : KnowledgeGene :=
  { id := "a", semantic_pattern := [1], connections := [] }

/-- Pool used by the C1 witness. -/
def poolC1 : NeuralGenePool :=
  { genes := [("a", geneC1)], graph := { nodes := ["a"], edges := [] }, embedding_dim := 1 }

/-- Witness for C1: the concrete reactivated gene is in the updated pool. -/
theorem activate_genes_spec_witness :
    ("a", { geneC1 with
             activation := max 0 (dot geneC1.semantic_pattern [1] - 3/10) }) ∈
      ((poolC1.activate_genes [1]).1.genes) :=
  (((activate_genes_spec poolC1 [1]).2.2 ("a", geneC1) (by simp [poolC1])).1) rfl

/-- Witness for the amended C10 at a concrete pool and gene. -/
theorem add_gene_replaces_existing_witness :
    (poolC10.add_gene geneC10new).isSome ∧
    (poolC10.add_gene geneC10new).map (fun p => dictGet p.genes geneC10new.id) =
      some (some geneC10new) ∧
    (poolC10.add_gene geneC10new).map (fun p => p.genes.length) =
      some poolC10.genes.length :=
  add_gene_replaces_existing poolC10 geneC10new
    (by simp [poolC10, dictGet, geneC10new, geneC10old]) rfl

/-! ### C6 — mutation renormalizes to unit norm -/

theorem dot_self_nonneg (v : List ℝ) : 0 ≤ dot v v := by
  induction v with
  | nil => simp [dot]
  | cons a v ih =>
    rw [dot, List.zipWith_cons_cons, List.sum_cons]
    exact add_nonneg (mul_self_nonneg a) ih

theorem dot_map_div (v : List ℝ) (s : ℝ) :
    dot (v.map (· / s)) (v.map (· / s)) = dot v v / s ^ 2 := by
  induction v with
  | nil => simp [dot]
  | cons a v ih =>
    have h1 : dot ((a :: v).map (· / s)) ((a :: v).map (· / s)) =
        a / s * (a / s) + dot (v.map (· / s)) (v.map (· / s)) := by
      rw [List.map_cons, dot, List.zipWith_cons_cons, List.sum_cons, ← dot]
    have h2 : dot (a :: v) (a :: v) = a * a + dot v v := by
      rw [dot, List.zipWith_cons_cons, List.sum_cons, ← dot]
    rw [h1, h2, ih]
    ring

theorem normL2_normalize (v : List ℝ) (h : dot v v ≠ 0) :
    normL2 (normalize v) = 1 := by
  unfold normalize normL2
  rw [dot_map_div, Real.sq_sqrt (dot_self_nonneg v), div_self h, Real.sqrt_one]

/-- The pattern perturbation of `evolve` before renormalization. -/
noncomputable def perturbed (pattern : List ℝ) (mutation_rate : ℝ)
    (randoms gauss : List ℝ) : List ℝ :=
  List.zipWith (fun p rg => if rg.1 < mutation_rate then p + rg.2 else p)
    pattern (randoms.zip gauss)

/-- C6 (amended): for a gene with unit-norm pattern and any rate in `[0,1]`,
provided the random perturbation does not exactly cancel the pattern (an
almost-sure event for Gaussian noise), the child of `evolve` has a unit-norm
pattern, strength exactly `0.95` times the parent's, and connection map,
metadata and derived id equal to the parent's (the pure embedding makes
"copied, not shared" and "parent unchanged" automatic). -/
theorem evolve_spec (g : KnowledgeGene) (rate : ℝ) (randoms gauss : List ℝ)
    (hunit : normL2 g.semantic_pattern = 1) (h0 : 0 ≤ rate) (h1 : rate ≤ 1)
    (hnz : dot (perturbed g.semantic_pattern rate randoms gauss)
             (perturbed g.semantic_pattern rate randoms gauss) ≠ 0) :
    normL2 (g.evolve rate randoms gauss).semantic_pattern = 1 ∧
    (g.evolve rate randoms gauss).strength = g.strength * (19/20) ∧
    (g.evolve rate randoms gauss).connections = g.connections ∧
    (g.evolve rate randoms gauss).metadata = g.metadata ∧
    (g.evolve rate randoms gauss).id = g.id ++ "_mut" := by
  refine ⟨?_, rfl, rfl, rfl, rfl⟩
  exact normL2_normalize _ hnz

/-- Parent gene of the C6 counterexample (unit-norm pattern `[1]`). -/
noncomputable def geneC6cx : KnowledgeGene :=
  { id := "g", semantic_pattern := [1], connections := [] }

/-- C6 counterexample: with rate `1` (allowed by the claim) and a Gaussian
draw of `-1`, the perturbed pattern is the zero vector; the renormalization
divides zero by zero and the child's pattern has norm `0`, not `1`, so the
claim does not hold for every random draw. -/
theorem evolve_norm_counterexample :
    normL2 geneC6cx.semantic_pattern = 1 ∧
    (0:ℝ) ≤ 1 ∧ (1:ℝ) ≤ 1 ∧
    normL2 ((geneC6cx.evolve 1 [0] [-1]).semantic_pattern) ≠ 1 := by
  refine ⟨?_, by norm_num, le_refl _, ?_⟩
  · rw [geneC6cx]
    unfold normL2 dot
    norm_num
  · rw [geneC6cx]
    unfold KnowledgeGene.evolve
    have hz : List.zipWith
        (fun p rg => if rg.1 < (1:ℝ) then p + rg.2 else p)
        [(1:ℝ)] (List.zip [(0:ℝ)] [(-1:ℝ)]) = [0] := by
      norm_num [List.zip]
    dsimp only
    rw [hz]
    unfold normalize normL2 dot
    norm_num

/-- Witness for the amended C6: rate `0` and draws that leave the unit
pattern `[1]` untouched satisfy every hypothesis. -/
theorem evolve_spec_witness :
    normL2 ((KnowledgeGene.mk "g" [1] [] 1 0 []).evolve 0 [1] [0]).semantic_pattern = 1 ∧
    ((KnowledgeGene.mk "g" [1] [] 1 0 []).evolve 0 [1] [0]).strength = 1 * (19/20) ∧
    ((KnowledgeGene.mk "g" [1] [] 1 0 []).evolve 0 [1] [0]).connections = [] ∧
    ((KnowledgeGene.mk "g" [1] [] 1 0 []).evolve 0 [1] [0]).metadata = [] ∧
    ((KnowledgeGene.mk "g" [1] [] 1 0 []).evolve 0 [1] [0]).id = "g" ++ "_mut" :=
  evolve_spec (KnowledgeGene.mk "g" [1] [] 1 0 []) 0 [1] [0]
    (by unfold normL2 dot; norm_num)
    (le_refl 0) (by norm_num)
    (by unfold perturbed dot; norm_num [List.zip])

/-! ### C5 — the crossover laws -/

theorem dictGetD_dictSet_self (m : List (String × α)) (k : String) (v d : α) :
    dictGetD (dictSet m k v) k d = v := by
  rw [dictGetD, dictGet_dictSet_self]
  rfl

theorem dictGetD_dictSet_ne (m : List (String × α)) (k k' : String) (v d : α)
    (hne : k' ≠ k) : dictGetD (dictSet m k v) k' d = dictGetD m k' d := by
  rw [dictGetD, dictGet_dictSet_ne _ _ _ _ hne, dictGetD]

theorem dictGetD_cons (p : String × α) (m : List (String × α)) (k : String) (d : α) :
    dictGetD (p :: m) k d = if p.1 = k then p.2 else dictGetD m k d := by
  rw [dictGetD, dictGet_cons]
  by_cases h : p.1 = k
  · rw [if_pos h, if_pos h]
    rfl
  · rw [if_neg h, if_neg h, dictGetD]

theorem dictGetD_nonneg (m : List (String × ℚ)) (k : String)
    (h : ∀ kv ∈ m, 0 ≤ kv.2) : 0 ≤ dictGetD m k 0 := by
  rw [dictGetD, dictGet]
  cases hf : m.find? (fun p => p.1 == k) with
  | none => simp
  | some p =>
    have : p ∈ m := List.mem_of_find?_eq_some hf
    simpa using h p this

/-- Lookup law of the connection merge of `_crossover`: starting from a copy
of the first parent's connections, every entry of the second parent is set to
`max(its weight, current weight or 0)`. -/
theorem mergeConn_lookup (b : List (String × ℚ)) :
    ∀ a : List (String × ℚ), (dictKeys b).Nodup → ∀ k : String,
      dictGetD (b.foldl
        (fun acc kv => dictSet acc kv.1 (max kv.2 (dictGetD acc kv.1 0))) a) k 0 =
      if k ∈ dictKeys b then max (dictGetD b k 0) (dictGetD a k 0)
      else dictGetD a k 0 := by
  induction b with
  | nil =>
    intro a _ k
    simp [dictKeys]
  | cons kv rest ih =>
    intro a hnd k
    have hnd' : (dictKeys rest).Nodup := (List.nodup_cons.1 hnd).2
    have hk0 : kv.1 ∉ dictKeys rest := (List.nodup_cons.1 hnd).1
    rw [List.foldl_cons, ih _ hnd' k]
    by_cases hkb : k = kv.1
    · subst hkb
      rw [if_neg hk0, dictGetD_dictSet_self,
        if_pos (by simp [dictKeys]), dictGetD_cons, if_pos rfl]
    · by_cases hkr : k ∈ dictKeys rest
      · rw [if_pos hkr, if_pos (by simp [dictKeys]; right; simpa [dictKeys] using hkr),
          dictGetD_dictSet_ne _ _ _ _ _ (fun hh => hkb hh),
          dictGetD_cons, if_neg (fun hh => hkb hh.symm)]
      · rw [if_neg hkr, if_neg ?hnot, dictGetD_dictSet_ne _ _ _ _ _ (fun hh => hkb hh)]
        case hnot =>
          intro hmem
          rcases (by simpa [dictKeys] using hmem : k = kv.1 ∨ k ∈ dictKeys rest) with h | h
          · exact hkb h
          · exact hkr h

/-- Lookup law of the metadata union `{**m1, **m2}`. -/
theorem dictUpdate_lookup (m2 : List (String × α)) :
    ∀ m1 : List (String × α), (dictKeys m2).Nodup → ∀ k : String,
      dictGet (dictUpdate m1 m2) k = (dictGet m2 k).or (dictGet m1 k) := by
  induction m2 with
  | nil =>
    intro m1 _ k
    simp [dictUpdate, dictGet]
  | cons kv rest ih =>
    intro m1 hnd k
    have hnd' : (dictKeys rest).Nodup := (List.nodup_cons.1 hnd).2
    have hk0 : kv.1 ∉ dictKeys rest := (List.nodup_cons.1 hnd).1
    rw [dictUpdate, List.foldl_cons]
    rw [show rest.foldl (fun acc kv => dictSet acc kv.1 kv.2) (dictSet m1 kv.1 kv.2) =
      dictUpdate (dictSet m1 kv.1 kv.2) rest from rfl]
    rw [ih _ hnd' k, dictGet_cons]
    by_cases hk : k = kv.1
    · subst hk
      rw [dictGet_eq_none_of_not_mem_keys rest _ hk0, Option.none_or,
        dictGet_dictSet_self, if_pos rfl, Option.or_some]
    · rw [dictGet_dictSet_ne _ _ _ _ hk, if_neg (fun hh => hk hh.symm)]

/-- C5 (amended): crossover fails exactly on a pattern-length mismatch and
otherwise yields a child whose strength is exactly the parents' mean, whose
metadata is the parents' union with the second parent's values winning, and —
provided the first parent's connection weights are nonnegative, as the data
model's weight range `[0,1]` guarantees — whose connection map assigns to
every key of either parent the maximum of the parents' weights, a missing
key counting as `0`.  (For a negative weight on a key present only in the
first parent the code keeps that negative weight, not `0`.) -/
theorem crossover_spec (g1 g2 : KnowledgeGene) (alpha : ℝ)
    (hnodup : (dictKeys g2.connections).Nodup)
    (hnn : ∀ kv ∈ g1.connections, 0 ≤ kv.2)
    (hmeta : (dictKeys g2.metadata).Nodup) :
    (crossover g1 g2 alpha = none ↔
       g1.semantic_pattern.length ≠ g2.semantic_pattern.length) ∧
    (∀ child, crossover g1 g2 alpha = some child →
      child.strength = (g1.strength + g2.strength) / 2 ∧
      (∀ k, k ∈ dictKeys g1.connections ∨ k ∈ dictKeys g2.connections →
        dictGetD child.connections k 0 =
          max (dictGetD g1.connections k 0) (dictGetD g2.connections k 0)) ∧
      (∀ k, dictGet child.metadata k =
        (dictGet g2.metadata k).or (dictGet g1.metadata k))) := by
  by_cases hd : g1.semantic_pattern.length = g2.semantic_pattern.length
  · constructor
    · rw [crossover, if_neg (by simpa using hd)]
      exact iff_of_false (by simp) (by simpa using hd)
    · intro child hsome
      rw [crossover, if_neg (by simpa using hd)] at hsome
      obtain rfl := Option.some_inj.mp hsome
      refine ⟨rfl, ?_, ?_⟩
      · intro k hk
        dsimp only
        rw [mergeConn_lookup _ _ hnodup k]
        by_cases hkb : k ∈ dictKeys g2.connections
        · rw [if_pos hkb, max_comm]
        · rw [if_neg hkb]
          have hka : k ∈ dictKeys g1.connections := hk.resolve_right hkb
          rw [show dictGetD g2.connections k 0 = 0 from by
              rw [dictGetD, dictGet_eq_none_of_not_mem_keys _ _ hkb]; rfl]
          exact (max_eq_left (dictGetD_nonneg _ _ hnn)).symm
      · intro k
        dsimp only
        exact dictUpdate_lookup _ _ hmeta k
  · constructor
    · rw [crossover, if_pos hd]
      exact iff_of_true rfl hd
    · intro child hsome
      rw [crossover, if_pos hd] at hsome
      cases hsome

/-- First parent of the C5 counterexample: a negative connection weight on a
key the second parent does not have. -/
noncomputable def geneC5a : KnowledgeGene :=
  { id := "a", semantic_pattern := [1], connections := [("x", -1)] }

/-- Second parent of the C5 counterexample. -/
noncomputable def geneC5b : KnowledgeGene :=
  { id := "b", semantic_pattern := [1], connections := [] }

/-- C5 counterexample: the crossover succeeds, but the child keeps the first
parent's negative weight `-1` on key `"x"` instead of the claimed
`max(-1, 0) = 0`, so the connection law of the claim fails as stated. -/
theorem crossover_connections_counterexample :
    (crossover geneC5a geneC5b (1/2)).isSome ∧
    ∀ child, crossover geneC5a geneC5b (1/2) = some child →
      dictGetD child.connections "x" 0 ≠
        max (dictGetD geneC5a.connections "x" 0) (dictGetD geneC5b.connections "x" 0) := by
  constructor
  · rw [crossover, if_neg (by norm_num [geneC5a, geneC5b])]
    rfl
  · intro child hsome
    rw [crossover, if_neg (by norm_num [geneC5a, geneC5b])] at hsome
    obtain rfl := Option.some_inj.mp hsome
    dsimp only
    rw [show geneC5b.connections = [] from rfl, List.foldl_nil,
      show geneC5a.connections = [("x", -1)] from rfl,
      dictGetD_cons, if_pos rfl,
      show dictGetD ([] : List (String × ℚ)) "x" 0 = 0 from rfl]
    norm_num

/-- Witness for the amended C5 at concrete parents with nonnegative weights. -/
theorem crossover_spec_witness :
    crossover (KnowledgeGene.mk "a" [1] [("x", 1/2)] 1 0 [("m", "1")])
        (KnowledgeGene.mk "b" [1] [("x", 1/4), ("y", 2)] 1 0 [("m", "2")]) (1/2) = none ↔
      ([(1:ℝ)].length ≠ [(1:ℝ)].length) :=
  (crossover_spec (KnowledgeGene.mk "a" [1] [("x", 1/2)] 1 0 [("m", "1")])
    (KnowledgeGene.mk "b" [1] [("x", 1/4), ("y", 2)] 1 0 [("m", "2")]) (1/2)
    (by simp [dictKeys])
    (by intro kv hkv; simp at hkv; rw [hkv]; norm_num)
    (by simp [dictKeys])).1

/-! ### C9 — walk order and truncation of `evolve_activation` -/

/-- Offspring contributed by position `i` of the generation walk, phrased the
way the spec describes it: a possible mutant of gene `i`, then — if `i` is
not the last position — a possible crossover child of genes `i` and `i + 1`;
a raising crossover yields `none`. -/
noncomputable def positionOffspring (mutation_rate crossover_rate : ℝ)
    (mrand crand : ℕ → ℝ) (mutRandoms mutGauss : ℕ → List ℝ) (alpha : ℕ → ℝ)
    (genes : List KnowledgeGene) (i : ℕ) : Option (List KnowledgeGene) :=
  match genes.get? i with
  | none => some []
  | some g =>
    let m : List KnowledgeGene :=
      if mrand i < mutation_rate then [g.evolve (1/10) (mutRandoms i) (mutGauss i)] else []
    match genes.get? (i + 1) with
    | none => some m
    | some g2 =>
      if crand i < crossover_rate then
        (crossover g g2 (alpha i)).map (fun c => m ++ [c])
      else some m

/-- The accumulated offspring of the walk from position `i` on: the
concatenation, in positional order, of each position's contribution. -/
noncomputable def specWalkFrom (mutation_rate crossover_rate : ℝ)
    (mrand crand : ℕ → ℝ) (mutRandoms mutGauss : ℕ → List ℝ) (alpha : ℕ → ℝ)
    (genes : List KnowledgeGene) (i : ℕ) : Option (List KnowledgeGene) :=
  if h : i < genes.length then
    match positionOffspring mutation_rate crossover_rate mrand crand
        mutRandoms mutGauss alpha genes i with
    | none => none
    | some part =>
      match specWalkFrom mutation_rate crossover_rate mrand crand
          mutRandoms mutGauss alpha genes (i + 1) with
      | none => none
      | some rest => some (part ++ rest)
  else some []
termination_by genes.length - i

theorem evolveWalk_eq_specWalkFrom (mutation_rate crossover_rate : ℝ)
    (mrand crand : ℕ → ℝ) (mutRandoms mutGauss : ℕ → List ℝ) (alpha : ℕ → ℝ)
    (genes : List KnowledgeGene) :
    ∀ n i, genes.length - i = n →
      evolveWalk mutation_rate crossover_rate mrand crand mutRandoms mutGauss alpha
          i (genes.drop i) =
        specWalkFrom mutation_rate crossover_rate mrand crand mutRandoms mutGauss alpha
          genes i := by
  intro n
  induction n with
  | zero =>
    intro i h
    have hle : genes.length ≤ i := by omega
    rw [List.drop_eq_nil_of_le hle, evolveWalk, specWalkFrom, dif_neg (by omega)]
  | succ n ih =>
    intro i h
    have hlt : i < genes.length := by omega
    have hdrop : genes.drop i = genes.get ⟨i, hlt⟩ :: genes.drop (i + 1) :=
      List.drop_eq_get_cons hlt
    have hg : genes.get? i = some (genes.get ⟨i, hlt⟩) := List.get?_eq_get hlt
    have ihq := ih (i + 1) (by omega)
    rw [hdrop]
    rw [evolveWalk.eq_def]
    dsimp only
    rw [specWalkFrom, dif_pos hlt, positionOffspring, hg]
    cases hrest : genes.drop (i + 1) with
    | nil =>
      have hnone : genes.get? (i + 1) = none :=
        List.get?_eq_none.mpr (List.drop_eq_nil_iff.mp hrest)
      rw [hnone]
      rw [hrest] at ihq
      rw [evolveWalk] at ihq
      rw [← ihq]
      dsimp only
      rw [evolveWalk]
      simp
    | cons g2 rest' =>
      have hlt2 : i + 1 < genes.length := by
        by_contra hcon
        rw [List.drop_eq_nil_of_le (by omega)] at hrest
        cases hrest
      have hg2 : genes.get? (i + 1) = some g2 := by
        have h2 := List.drop_eq_get_cons (l := genes) hlt2
        rw [hrest] at h2
        injection h2 with h21 h22
        rw [List.get?_eq_get hlt2, ← h21]
      rw [hg2]
      rw [hrest] at ihq
      dsimp only
      by_cases hcross : crand i < crossover_rate
      · rw [if_pos hcross, if_pos hcross]
        cases hx : crossover (genes.get ⟨i, hlt⟩) g2 (alpha i) with
        | none => rfl
        | some c =>
          rw [ihq]
          cases hw : specWalkFrom mutation_rate crossover_rate mrand crand
              mutRandoms mutGauss alpha genes (i + 1) with
          | none => rfl
          | some tail => simp [List.append_assoc]
      · rw [if_neg hcross, if_neg hcross, ihq]
        cases hw : specWalkFrom mutation_rate crossover_rate mrand crand
            mutRandoms mutGauss alpha genes (i + 1) with
        | none => rfl
        | some tail => simp

/-- C9: one generation step accumulates offspring in positional walk order —
for each position a possible mutant of that gene followed, when the position
is not the last, by a possible crossover child with the next gene — and
returns the first `top_k` entries of the accumulated output, so any returned
list has length at most `top_k`. -/
theorem evolve_activation_spec (genes : List KnowledgeGene)
    (mutation_rate crossover_rate : ℝ) (top_k : ℕ)
    (mrand crand : ℕ → ℝ) (mutRandoms mutGauss : ℕ → List ℝ) (alpha : ℕ → ℝ) :
    NeuralGenePool.evolve_activation genes mutation_rate crossover_rate top_k
        mrand crand mutRandoms mutGauss alpha =
      (specWalkFrom mutation_rate crossover_rate mrand crand mutRandoms mutGauss alpha
          genes 0).map (List.take top_k) ∧
    (∀ out, NeuralGenePool.evolve_activation genes mutation_rate crossover_rate top_k
        mrand crand mutRandoms mutGauss alpha = some out → out.length ≤ top_k) := by
  have hmain : NeuralGenePool.evolve_activation genes mutation_rate crossover_rate top_k
      mrand crand mutRandoms mutGauss alpha =
      (specWalkFrom mutation_rate crossover_rate mrand crand mutRandoms mutGauss alpha
          genes 0).map (List.take top_k) := by
    rw [NeuralGenePool.evolve_activation,
      ← evolveWalk_eq_specWalkFrom mutation_rate crossover_rate mrand crand
        mutRandoms mutGauss alpha genes (genes.length - 0) 0 rfl,
      List.drop_zero]
  refine ⟨hmain, ?_⟩
  intro out hout
  rw [hmain] at hout
  cases hs : specWalkFrom mutation_rate crossover_rate mrand crand
      mutRandoms mutGauss alpha genes 0 with
  | none => rw [hs] at hout; cases hout
  | some full =>
    rw [hs, Option.map_some'] at hout
    obtain rfl := Option.some_inj.mp hout.symm
    rw [List.length_take]
    omega

/-- Witness for C9 at the empty activated list: the walk returns the empty
offspring list, whose length is at most `top_k = 5`. -/
theorem evolve_activation_spec_witness :
    ([] : List KnowledgeGene).length ≤ 5 :=
  (evolve_activation_spec [] 0 0 5 (fun _ => 0) (fun _ => 0) (fun _ => [])
    (fun _ => []) (fun _ => 0)).2 [] rfl

/-! ### C8 — `similarity_search` -/

theorem validScores_mem (mem : HolographicMemory) (cq : List ℝ) :
    ∀ (l : List (List ℝ)) (i : ℕ) (p : ℕ × ℝ), p ∈ validScores mem cq i l →
      ∃ j v, l.get? j = some v ∧ v.length = mem.embedding_dim ∧
        p = (i + j, dot cq (mem.compressRaw v)) := by
  intro l
  induction l with
  | nil =>
    intro i p hp
    rw [validScores] at hp
    cases hp
  | cons v rest ih =>
    intro i p hp
    rw [validScores] at hp
    by_cases hv : v.length = mem.embedding_dim
    · rw [if_pos hv] at hp
      rcases List.mem_cons.1 hp with h | h
      · exact ⟨0, v, rfl, hv, by simpa using h⟩
      · rcases ih (i + 1) p h with ⟨j, w, hw1, hw2, hw3⟩
        refine ⟨j + 1, w, by simpa using hw1, hw2, ?_⟩
        rw [hw3, show i + (j + 1) = i + 1 + j from by omega]
    · rw [if_neg hv] at hp
      rcases ih (i + 1) p hp with ⟨j, w, hw1, hw2, hw3⟩
      refine ⟨j + 1, w, by simpa using hw1, hw2, ?_⟩
      rw [hw3, show i + (j + 1) = i + 1 + j from by omega]

theorem validScores_complete (mem : HolographicMemory) (cq : List ℝ) :
    ∀ (l : List (List ℝ)) (i j : ℕ) (v : List ℝ), l.get? j = some v →
      v.length = mem.embedding_dim →
      (i + j, dot cq (mem.compressRaw v)) ∈ validScores mem cq i l := by
  intro l
  induction l with
  | nil =>
    intro i j v hj _
    simp at hj
  | cons w rest ih =>
    intro i j v hj hv
    cases j with
    | zero =>
      obtain rfl := Option.some_inj.mp (by simpa using hj)
      rw [validScores, if_pos hv, Nat.add_zero]
      exact List.mem_cons_self _ _
    | succ j =>
      have hmem := ih (i + 1) j v (by simpa using hj) hv
      rw [validScores]
      by_cases hw : w.length = mem.embedding_dim
      · rw [if_pos hw]
        refine List.mem_cons_of_mem _ ?_
        rw [show i + (j + 1) = i + 1 + j from by omega]
        exact hmem
      · rw [if_neg hw]
        rw [show i + (j + 1) = i + 1 + j from by omega]
        exact hmem

theorem zip_map_proj (l : List (ℕ × ℝ)) :
    (l.map (·.1)).zip (l.map (·.2)) = l := by
  induction l with
  | nil => rfl
  | cons p rest ih => simp [ih]

/-- C8: for a query of the right dimension, `similarity_search` always
returns a pair of lists (mismatched candidates are skipped, never aborting);
the returned score list is sorted descending; when `top_k > 0` at most
`top_k` entries are returned (Python's `[-0:]` slice returns everything when
`top_k = 0`); the returned `(index, score)` pairs together with some set of
dropped candidates form exactly the valid candidates, every dropped
candidate scoring no higher than every returned one; every valid candidate's
score is the dot product of the compressed query and the compressed
candidate at its original index; and two empty lists come back when no
candidate is valid. -/
theorem similarity_search_spec (mem : HolographicMemory) (query : List ℝ)
    (vectors : List (List ℝ)) (top_k : ℕ)
    (hq : query.length = mem.embedding_dim) :
    ∃ idxs scores,
      mem.similarity_search query vectors top_k = some (idxs, scores) ∧
      idxs.length = scores.length ∧
      (validScores mem (mem.compressRaw query) 0 vectors = [] →
        idxs = [] ∧ scores = []) ∧
      scores.Sorted (fun a b : ℝ => b ≤ a) ∧
      (top_k ≠ 0 → idxs.length ≤ top_k) ∧
      (∃ dropped, (validScores mem (mem.compressRaw query) 0 vectors).Perm
          (dropped ++ idxs.zip scores) ∧
        ∀ p ∈ dropped, ∀ r ∈ idxs.zip scores, p.2 ≤ r.2) ∧
      (∀ p ∈ validScores mem (mem.compressRaw query) 0 vectors,
        ∃ v, vectors.get? p.1 = some v ∧ v.length = mem.embedding_dim ∧
          p.2 = dot (mem.compressRaw query) (mem.compressRaw v)) ∧
      (∀ j v, vectors.get? j = some v → v.length = mem.embedding_dim →
        (j, dot (mem.compressRaw query) (mem.compressRaw v)) ∈
          validScores mem (mem.compressRaw query) 0 vectors) := by
  have hprov : ∀ p ∈ validScores mem (mem.compressRaw query) 0 vectors,
      ∃ v, vectors.get? p.1 = some v ∧ v.length = mem.embedding_dim ∧
        p.2 = dot (mem.compressRaw query) (mem.compressRaw v) := by
    intro p hp
    rcases validScores_mem mem (mem.compressRaw query) vectors 0 p hp with
      ⟨j, v, hv1, hv2, hv3⟩
    rw [hv3]
    exact ⟨v, by simpa using hv1, hv2, rfl⟩
  have hcompl : ∀ j v, vectors.get? j = some v → v.length = mem.embedding_dim →
      (j, dot (mem.compressRaw query) (mem.compressRaw v)) ∈
        validScores mem (mem.compressRaw query) 0 vectors := by
    intro j v hj hv
    simpa using validScores_complete mem (mem.compressRaw query) vectors 0 j v hj hv
  rw [HolographicMemory.similarity_search, if_neg (by simpa using hq)]
  by_cases hval : validScores mem (mem.compressRaw query) 0 vectors = []
  · rw [if_pos hval]
    refine ⟨[], [], rfl, rfl, fun _ => ⟨rfl, rfl⟩, List.sorted_nil, fun _ => by simp,
      ⟨[], by simp [hval], by simp⟩, hprov, hcompl⟩
  · rw [if_neg hval]
    dsimp only
    refine ⟨_, _, rfl, by simp, fun h => absurd h hval, ?_, ?_, ?_, hprov, hcompl⟩
    · -- scores sorted descending
      have hsorted : (List.insertionSort scoreLE
          (validScores mem (mem.compressRaw query) 0 vectors)).Pairwise scoreLE :=
        List.sorted_insertionSort scoreLE _
      have hpw : (if top_k = 0 then
            List.insertionSort scoreLE (validScores mem (mem.compressRaw query) 0 vectors)
          else (List.insertionSort scoreLE
              (validScores mem (mem.compressRaw query) 0 vectors)).drop
            ((List.insertionSort scoreLE
              (validScores mem (mem.compressRaw query) 0 vectors)).length - top_k)).Pairwise
          scoreLE := by
        by_cases hk : top_k = 0
        · rwa [if_pos hk]
        · rw [if_neg hk]
          exact hsorted.sublist (List.drop_sublist _ _)
      rw [List.Sorted]
      rw [List.pairwise_map, List.pairwise_reverse]
      exact hpw
    · -- length bound
      intro hk
      rw [if_neg hk, List.length_map, List.length_reverse, List.length_drop]
      omega
    · -- permutation with dropped candidates and score dominance
      rw [zip_map_proj]
      by_cases hk : top_k = 0
      · rw [if_pos hk]
        refine ⟨[], ?_, by simp⟩
        rw [List.nil_append]
        exact ((List.perm_insertionSort scoreLE _).symm.trans
          (List.reverse_perm _).symm)
      · rw [if_neg hk]
        set s := List.insertionSort scoreLE
          (validScores mem (mem.compressRaw query) 0 vectors) with hs
        refine ⟨s.take (s.length - top_k), ?_, ?_⟩
        · have h1 : (validScores mem (mem.compressRaw query) 0 vectors).Perm s :=
            (List.perm_insertionSort scoreLE _).symm
          have h2 : s = s.take (s.length - top_k) ++ s.drop (s.length - top_k) :=
            (List.take_append_drop _ _).symm
          refine h1.trans ?_
          nth_rewrite 1 [h2]
          exact List.Perm.append_left _ (List.reverse_perm _).symm
        · intro p hp r hr
          have hsorted : s.Pairwise scoreLE := List.sorted_insertionSort scoreLE _
          have hsplit : (s.take (s.length - top_k) ++
              s.drop (s.length - top_k)).Pairwise scoreLE := by
            rw [List.take_append_drop]
            exact hsorted
          exact (List.pairwise_append.1 hsplit).2.2 p hp r (List.mem_reverse.1 hr)

/-- Compressor used by the C8 witness. -/
noncomputable def memC8 : HolographicMemory :=
  { compression_size := 1, embedding_dim := 1, basis := [[1]] }

/-- Witness for C8: a dimension-1 search with one valid and one skipped
candidate returns a result (the search does not abort). -/
theorem similarity_search_spec_witness :
    (memC8.similarity_search [1] [[1], [1, 2]] 5).isSome := by
  rcases similarity_search_spec memC8 [1] [[1], [1, 2]] 5 rfl with
    ⟨idxs, scores, h, _⟩
  rw [h]
  rfl

end Minerva
